import Mathlib

/-!
Shallow embedding of the kospeech decoding core:
`src/models/speller.py` (the `Speller` sequence decoder) and
`src/utils/distance.py` (the edit-distance scorer).

Modelling conventions:
* Tensors are nested lists; the batch dimension is the outer list.
* Real-valued entries are modelled by `Rat`.
* The learned sub-modules of the decoder (embedding, recurrent cell,
  attention, output projection, dropout) are fields of `SpellerNet`,
  abstract functions together with their shape (length) contracts.
  The recurrent module, as used in `Speller._forward_step`
  (`self.rnn(embedded, speller_hidden)[0]`), returns only its output
  sequence; the updated hidden state is discarded by the source.
* The Python global `random.random()` source is passed explicitly as a
  `RandState` (a stream plus a cursor); the torch RNG used for the
  uniform hidden-state initialisation is passed as `torch_rand`.
* `torch.max(-1)[1]` and `torch.topk(1)[1]` are modelled by a
  deterministic first-index argmax (`argmaxIdx`, `topkIdx`).
-/

namespace Kospeech

/-- A real-valued vector (one row of a tensor). -/
abbrev Vec := List Rat

/-- A vocabulary-indexed distribution of scores (one row of the output). -/
abbrev Dist := List Rat

/-- First element attaining the maximal score (earlier elements win ties). -/
def selectBestBy (score : α → Rat) : List α → Option α
  | [] => none
  | a :: as =>
    match selectBestBy score as with
    | none => some a
    | some b => if score b ≤ score a then some a else some b

/-- Top `k` elements by score, in descending score order; on equal scores the
element occurring earlier in the list is selected first (stable tie-break). -/
def topkBy (score : α → Rat) : Nat → List α → List α
  | 0, _ => []
  | k + 1, l =>
    match selectBestBy (fun p => score p.2) l.enum with
    | none => []
    | some p => p.2 :: topkBy score k (l.eraseIdx p.1)

/-- Indices of the top `k` entries of a score list (model of `torch.topk(k)[1]`
with a deterministic first-index tie-break). -/
def topkIdx (k : Nat) (l : List Rat) : List Nat :=
  (topkBy (fun p => p.2) k l.enum).map Prod.fst

/-- Index of the maximal entry (model of `torch.max(-1)[1]`, first index wins). -/
def argmaxIdx (l : List Rat) : Nat :=
  (topkIdx 1 l).headD 0

/-- Pointwise zip of three lists, truncating at the shortest. -/
def zipWith3 (f : α → β → γ → δ) : List α → List β → List γ → List δ
  | a :: as, b :: bs, c :: cs => f a b c :: zipWith3 f as bs cs
  | _, _, _ => []

/-- Model of `torch.stack(steps, dim=1)` for a list `steps` of per-step batched
slices of distributions: entry `[b][t]` of the result is entry `[t][b]` of
`steps`. -/
def stackDim1 (batch_size : Nat) (steps : List (List Dist)) : List (List Dist) :=
  (List.range batch_size).map (fun b => steps.map (fun s => s.getD b []))

/-- Size of dimension 1 of a batched tensor represented as a list of rows. -/
def size1 (m : List (List α)) : Nat :=
  (m.headD []).length

/-- Prefix of a token sequence up to and including the first end-of-sequence
token; the whole sequence when no such token occurs. -/
def takeThroughEos (eos_id : Nat) : List Nat → List Nat
  | [] => []
  | t :: ts => if t = eos_id then [t] else t :: takeThroughEos eos_id ts

/-- The recurrent cell kinds accepted by the `Speller` constructor
(`nn.LSTM` / `nn.GRU` / `nn.RNN`). -/
inductive RnnCellKind
  | lstm
  | gru
  | rnn
deriving DecidableEq, Repr

/-- Model of the Python `str.lower()` call: lower-case every character. -/
def strLower (s : String) : String :=
  String.mk (s.data.map Char.toLower)

/-- Cell selection performed by `Speller.__init__` (lines 73-74): the assert
admits exactly `lstm`, `gru`, `rnn` case-insensitively, and the matching
torch module class is selected. -/
def selectCell (rnn_cell : String) : Option RnnCellKind :=
  if strLower rnn_cell = "lstm" then some RnnCellKind.lstm
  else if strLower rnn_cell = "gru" then some RnnCellKind.gru
  else if strLower rnn_cell = "rnn" then some RnnCellKind.rnn
  else none

/-- The learned sub-modules of the decoder, abstracted as functions over `Rat`
vectors, with their tensor shape contracts. `H` is the type of the hidden
state of one batch element (all layers, and the cell state for LSTM). -/
structure SpellerNet (H : Type) where
  embedding : Nat → Vec
  input_dropout : Vec → Vec
  rnn : H → List Vec → List Vec
  attention : List Vec → List Vec → List Vec
  out : Vec → List Rat
  rnn_len : ∀ (h : H) (xs : List Vec), (rnn h xs).length = xs.length
  attention_len : ∀ (d e : List Vec), (attention d e).length = d.length

/-- The `Speller` module: configuration fixed at construction plus the learned
sub-modules. -/
structure Speller (H : Type) where
  vocab_size : Nat
  max_len : Nat
  hidden_size : Nat
  sos_id : Nat
  eos_id : Nat
  layer_size : Nat
  cell : RnnCellKind
  use_attention : Bool
  k : Nat
  net : SpellerNet H

/-- Model of `Speller.__init__`: the construction fails (Python
`AssertionError`, line 73) unless the cell kind is one of
`lstm` / `gru` / `rnn` case-insensitively; otherwise the matching recurrent
cell is selected and the module is built. -/
def Speller.init (H : Type) (net : SpellerNet H)
    (vocab_size max_len hidden_size sos_id eos_id layer_size : Nat)
    (rnn_cell : String) (use_attention : Bool) (k : Nat) : Option (Speller H) :=
  match selectCell rnn_cell with
  | none => none
  | some c =>
    some { vocab_size := vocab_size, max_len := max_len, hidden_size := hidden_size,
           sos_id := sos_id, eos_id := eos_id, layer_size := layer_size, cell := c,
           use_attention := use_attention, k := k, net := net }

/-- Model of `Speller._forward_step` (lines 91-108) for one batch element:
embed the input tokens, apply input dropout, run the recurrent module
(whose updated hidden state the source discards, keeping `[0]`), fuse with
attention when enabled (else the raw recurrent output is the context), and
apply the output projection followed by `function` at every position. -/
def forwardStepElem (S : Speller H) (function : Vec → Dist)
    (input : List Nat) (speller_hidden : H) (listener_outputs : List Vec) : List Dist :=
  let embedded := input.map (fun tok => S.net.input_dropout (S.net.embedding tok))
  let speller_output := S.net.rnn speller_hidden embedded
  let context :=
    if S.use_attention then S.net.attention speller_output listener_outputs
    else speller_output
  context.map (fun c => function (S.net.out c))

/-- Teacher-forced decoding (lines 131-142): the whole shifted target
(`inputs[:, :-1]`) is fed to `_forward_step` in a single batched call, and
`decode_results` collects the per-step slices `predicted_softmax[:, di, :]`
for `di < predicted_softmax.size(1)`. The result is steps-major. -/
def teacherDecodeResults (S : Speller H) (function : Vec → Dist)
    (inputs : List (List Nat)) (hiddens : List H) (encs : List (List Vec)) :
    List (List Dist) :=
  let shifted := inputs.map (fun row => row.dropLast)
  let predicted := zipWith3 (fun row h enc => forwardStepElem S function row h enc)
    shifted hiddens encs
  (List.range (size1 predicted)).map (fun di => predicted.map (fun p => p.getD di []))

/-- Free-running decoding for one batch element: at each step the single-token
input is fed to the step function, the (singleton) output is recorded, and
its top-1 index becomes the next input (lines 143-154, elementwise). -/
def freeRunElem (S : Speller H) (function : Vec → Dist)
    (enc : List Vec) (h : H) : Nat → List Nat → List Dist
  | 0, _ => []
  | n + 1, input =>
    let step_output := (forwardStepElem S function input h enc).headD []
    step_output :: freeRunElem S function enc h n (topkIdx 1 step_output)

/-- Free-running decoding, batched and steps-major (lines 143-154): each
iteration performs one batched `_forward_step` on single-token inputs,
squeezes the length-one dimension, appends the step output, and feeds the
per-element `topk(1)[1]` back as the next input. -/
def freeRunStepsB (S : Speller H) (function : Vec → Dist)
    (encs : List (List Vec)) (hiddens : List H) : Nat → List (List Nat) → List (List Dist)
  | 0, _ => []
  | n + 1, inputs =>
    let step_output :=
      (zipWith3 (fun row h enc => forwardStepElem S function row h enc) inputs hiddens encs).map
        (fun p => p.headD [])
    step_output :: freeRunStepsB S function encs hiddens n
      (step_output.map (fun d => topkIdx 1 d))

/-- Free-running decoding entry (line 144): the initial input is
`inputs[:, 0].unsqueeze(1)` and the loop runs for `max_len` iterations. -/
def freeDecodeResults (S : Speller H) (function : Vec → Dist)
    (inputs : List (List Nat)) (hiddens : List H) (encs : List (List Vec))
    (max_len : Nat) : List (List Dist) :=
  freeRunStepsB S function encs hiddens max_len (inputs.map (fun row => [row.headD 0]))

/-- Inner product of two vectors. -/
def dotProd (a b : Vec) : Rat :=
  (List.zipWith (fun x y => x * y) a b).sum

/-- Modelled from the spec: `AttentionModule` — the file `models/attention.py`
imported by `src/models/speller.py` is not under `src/`. Following the
spec's words: content-based dot-product attention computes, for each decode
position, alignment scores against every encoder timestep via inner
product, normalises them with softmax over the encoder-time dimension, and
returns the context (the weighted sum of encoder outputs) together with the
attention weights; an empty encoder-time dimension (`enc_len = 0`) is
rejected as an input error rather than silently producing a degenerate
context. `expF` abstracts the softmax exponential (a positive monotone
function on scores). -/
def attentionModule (expF : Rat → Rat) (decoder_output : List Vec)
    (listener_outputs : List Vec) : Except String (List Vec × List (List Rat)) :=
  if listener_outputs.length = 0 then
    Except.error ("attention: empty encoder-time dimension")
  else
    let weights := decoder_output.map (fun q =>
      let scores := listener_outputs.map (fun e => dotProd q e)
      let exps := scores.map expF
      let total := exps.sum
      exps.map (fun x => x / total))
    let dim := size1 listener_outputs
    let contexts := weights.map (fun w =>
      (List.zipWith (fun wi e => e.map (fun x => wi * x)) w listener_outputs).foldl
        (fun acc v => List.zipWith (fun x y => x + y) acc v) (List.replicate dim (0 : Rat)))
    Except.ok (contexts, weights)

/-- One candidate sequence within beam search: its token sequence so far
(including the leading seed token), cumulative log score, hidden-state
snapshot, and termination flag. -/
structure Hypothesis (H : Type) where
  tokens : List Nat
  score : Rat
  hidden : H
  terminated : Bool

/-- Modelled from the spec: one beam-search expansion of a hypothesis — its
current (last) token and hidden-state snapshot are fed to the step decoder,
its top-`k` next-token candidates are taken by log-probability, and each
candidate's score is the parent score plus the candidate token's
log-probability. A candidate is marked terminated the step it emits EOS.
The step decoder embedded from the source returns no updated hidden state,
so the parent's snapshot is carried forward unchanged. -/
def expandHyp (S : Speller H) (function : Vec → Dist) (enc : List Vec)
    (k : Nat) (hyp : Hypothesis H) : List (Hypothesis H) :=
  let dist := (forwardStepElem S function [hyp.tokens.getLastD 0] hyp.hidden enc).headD []
  (topkIdx k dist).map (fun tok =>
    { tokens := hyp.tokens ++ [tok],
      score := hyp.score + dist.getD tok 0,
      hidden := hyp.hidden,
      terminated := tok == S.eos_id })

/-- Modelled from the spec: the beam-search loop (`models/beam.py` is not
under `src/`). Each step expands all active hypotheses, selects the global
top-`k` extensions by cumulative score (stable index tie-break) as the new
beam, and moves newly terminated hypotheses — excluded from further
expansion but still eligible for final ranking — into `finished`. The loop
stops when every hypothesis is terminated or the step budget is spent. -/
def beamLoop (S : Speller H) (function : Vec → Dist) (enc : List Vec) (k : Nat) :
    Nat → List (Hypothesis H) → List (Hypothesis H) →
    List (Hypothesis H) × List (Hypothesis H)
  | 0, active, finished => (active, finished)
  | n + 1, active, finished =>
    if active.isEmpty then (active, finished)
    else
      let selected := topkBy (fun hyp : Hypothesis H => hyp.score) k
        (active.flatMap (expandHyp S function enc k))
      let newlyFinished := selected.filter (fun hyp => hyp.terminated)
      let stillActive := selected.filter (fun hyp => !hyp.terminated)
      beamLoop S function enc k n stillActive (finished ++ newlyFinished)

/-- Token sequence of the highest-scoring hypothesis among the finished and
the remaining active ones (stable index order on ties). -/
def bestTokens (r : List (Hypothesis H) × List (Hypothesis H)) : List Nat :=
  match selectBestBy (fun hyp : Hypothesis H => hyp.score) (r.2 ++ r.1) with
  | none => []
  | some hyp => hyp.tokens

/-- Modelled from the spec: `BeamSearchEngine` for one batch element — `k`
hypotheses seeded with the initial token and the initial hidden state, the
beam loop run within the step budget, and the single best
terminated-or-max-length hypothesis returned with the leading seed token
excluded. -/
def beamSearchElem (S : Speller H) (function : Vec → Dist) (enc : List Vec)
    (k : Nat) (max_len : Nat) (init_tok : Nat) (h : H) : List Nat :=
  let start : Hypothesis H :=
    { tokens := [init_tok], score := 0, hidden := h, terminated := false }
  let r := beamLoop S function enc k max_len (List.replicate k start) []
  (bestTokens r).drop 1

/-- Explicit-state model of the Python `random` module: a stream of uniform
draws and a cursor pointing at the next unconsumed draw. -/
structure RandState where
  stream : Nat → Rat
  cursor : Nat

/-- Result of one decode call: the predicted token ids, the per-step
log-probability distributions (absent in beam mode), and the cursor of the
Python random source after the call. -/
structure ForwardOut where
  y_hats : List (List Nat)
  logit : Option (List (List Dist))
  cursor : Nat

/-- Model of `Speller.forward` (lines 110-158). The call computes
`max_len = inputs.size(1) - 1`, freshly initialises the hidden state from
the torch RNG (`torch_rand`; the `listener_hidden` argument is never read),
draws one value from the Python random source to fix teacher forcing for
the whole call, and then either delegates to beam search (returning no
distributions), runs the teacher-forced single batched step, or runs the
free-running loop; in the non-beam branches the per-step results are
stacked at dim 1 and the tokens are the per-position argmax. -/
def Speller.forward (S : Speller H) (inputs : List (List Nat))
    (listener_hidden : List H) (listener_outputs : List (List Vec))
    (function : Vec → Dist) (teacher_forcing_ratio : Rat)
    (use_beam_search : Bool) (rng : RandState) (torch_rand : Nat → H) : ForwardOut :=
  let batch_size := inputs.length
  let max_len := size1 inputs - 1
  let speller_hidden := (List.range batch_size).map torch_rand
  let use_teacher_forcing := rng.stream rng.cursor < teacher_forcing_ratio
  if use_beam_search then
    let firsts := inputs.map (fun row => row.headD 0)
    let y_hats := zipWith3
      (fun tok h enc => beamSearchElem S function enc S.k max_len tok h)
      firsts speller_hidden listener_outputs
    { y_hats := y_hats, logit := none, cursor := rng.cursor + 1 }
  else
    let decode_results :=
      if use_teacher_forcing then
        teacherDecodeResults S function inputs speller_hidden listener_outputs
      else
        freeDecodeResults S function inputs speller_hidden listener_outputs max_len
    let logit := stackDim1 batch_size decode_results
    let y_hats := logit.map (fun row => row.map argmaxIdx)
    { y_hats := y_hats, logit := some logit, cursor := rng.cursor + 1 }

/-- Unit-cost Levenshtein distance, the model of `Levenshtein.distance` from
the python-Levenshtein package used by `src/utils/distance.py`. -/
def levDistance (xs ys : List Char) : Nat :=
  levenshtein Levenshtein.defaultCost xs ys

/-- Model of `char_distance` (`src/utils/distance.py`, lines 17-36): both
strings have their spaces removed, `distance` is `Lev.distance(y_hat,
target)`, and `length` is the length of `target` with spaces removed (the
source filters the already-filtered target a second time). -/
def char_distance (target y_hat : List Char) : Nat × Nat :=
  let target1 := target.filter (fun c => c != ' ')
  let y_hat1 := y_hat.filter (fun c => c != ' ')
  let distance := levDistance y_hat1 target1
  let length := (target1.filter (fun c => c != ' ')).length
  (distance, length)

/-- Modelled from the spec: `label_to_string` (`utils/label.py` is not under
`src/`) — converts an id sequence to a string through the `id2char`
mapping, stripping the content at and after the EOS id. -/
def label_to_string (labels : List Nat) (id2char : Nat → Char) (eos_id : Nat) : List Char :=
  (labels.takeWhile (fun i => i != eos_id)).map id2char

/-- Model of `get_distance` (`src/utils/distance.py`, lines 38-63): iterate
over the batch indices, convert each pair of id sequences with
`label_to_string`, and accumulate the total distance and total target
length returned by `char_distance`. -/
def get_distance (targets y_hats : List (List Nat)) (id2char : Nat → Char)
    (eos_id : Nat) : Nat × Nat :=
  (List.range targets.length).foldl
    (fun acc i =>
      let target := label_to_string (targets.getD i []) id2char eos_id
      let y_hat := label_to_string (y_hats.getD i []) id2char eos_id
      let dl := char_distance target y_hat
      (acc.1 + dl.1, acc.2 + dl.2))
    (0, 0)

/-- A concrete trivial network over the unit hidden-state type, used to
instantiate the theorems on executable inputs: the recurrent module is the
identity on the embedded sequence and the output projection is the
constant distribution `[0, 1]`. -/
def netU : SpellerNet Unit :=
  { embedding := fun _ => [],
    input_dropout := fun v => v,
    rnn := fun _ xs => xs,
    attention := fun d _ => d,
    out := fun _ => [0, 1],
    rnn_len := fun _ _ => rfl,
    attention_len := fun _ _ => rfl }

/-- A concrete decoder instance: vocabulary `{0, 1}`, `sos_id = 0`,
`eos_id = 1`, beam width 1, attention disabled. Every step emits the
distribution `[0, 1]`, whose argmax is the EOS token `1`. -/
def spU : Speller Unit :=
  { vocab_size := 2, max_len := 4, hidden_size := 1, sos_id := 0, eos_id := 1,
    layer_size := 1, cell := RnnCellKind.gru, use_attention := false, k := 1,
    net := netU }

/-- A concrete random state whose every draw is `0`. -/
def rngU : RandState :=
  { stream := fun _ => 0, cursor := 0 }

theorem getD_map_lt (f : α → β) (d : β) (d' : α) (l : List α) (i : Nat)
    (h : i < l.length) : (l.map f).getD i d = f (l.getD i d') := by
  rw [List.getD_eq_getElem _ _ (by simpa using h), List.getD_eq_getElem _ _ h,
    List.getElem_map]

theorem getD_mem_of_lt (l : List α) (i : Nat) (d : α) (h : i < l.length) :
    l.getD i d ∈ l := by
  rw [List.getD_eq_getElem _ _ h]
  exact List.getElem_mem h

theorem zipWith3_length (f : α → β → γ → δ) :
    ∀ (as : List α) (bs : List β) (cs : List γ), as.length = bs.length →
      bs.length = cs.length → (zipWith3 f as bs cs).length = as.length
  | [], _, _, _, _ => by simp [zipWith3]
  | _ :: _, [], _, h1, _ => by simp at h1
  | _ :: _, _ :: _, [], _, h2 => by simp at h2
  | a :: as, b :: bs, c :: cs, h1, h2 => by
    simp only [zipWith3, List.length_cons]
    exact congrArg Nat.succ
      (zipWith3_length f as bs cs (by simpa using h1) (by simpa using h2))

theorem zipWith3_getD (f : α → β → γ → δ) (d : δ) (da : α) (db : β) (dc : γ) :
    ∀ (as : List α) (bs : List β) (cs : List γ) (i : Nat), i < as.length →
      as.length = bs.length → bs.length = cs.length →
      (zipWith3 f as bs cs).getD i d = f (as.getD i da) (bs.getD i db) (cs.getD i dc)
  | _ :: _, [], _, _, _, h1, _ => by simp at h1
  | _ :: _, _ :: _, [], _, _, _, h2 => by simp at h2
  | a :: as, b :: bs, c :: cs, 0, _, _, _ => by simp [zipWith3]
  | a :: as, b :: bs, c :: cs, i + 1, hi, h1, h2 => by
    simp only [zipWith3, List.getD_cons_succ]
    exact zipWith3_getD f d da db dc as bs cs i (by simpa using hi)
      (by simpa using h1) (by simpa using h2)

theorem stackDim1_getD (batch_size : Nat) (steps : List (List Dist)) (b : Nat)
    (hb : b < batch_size) :
    (stackDim1 batch_size steps).getD b [] = steps.map (fun s => s.getD b []) := by
  unfold stackDim1
  rw [getD_map_lt _ _ 0 _ b (by simpa using hb), List.getD_eq_getElem _ _ (by simpa using hb),
    List.getElem_range]

theorem range_map_getD (d : α) : ∀ (row : List α),
    (List.range row.length).map (fun i => row.getD i d) = row
  | [] => rfl
  | a :: as => by
    rw [List.length_cons, List.range_succ_eq_map, List.map_cons, List.map_map]
    show a :: (List.range as.length).map (fun i => as.getD i d) = a :: as
    rw [range_map_getD d as]

theorem selectBestBy_isSome (score : α → Rat) :
    ∀ (l : List α), l ≠ [] → (selectBestBy score l).isSome = true
  | [], h => absurd rfl h
  | a :: as, _ => by
    unfold selectBestBy
    cases selectBestBy score as
    · rfl
    · dsimp only
      split <;> rfl

theorem topkIdx_one (l : List Rat) (h : l ≠ []) : topkIdx 1 l = [argmaxIdx l] := by
  have h2 : l.enum.enum ≠ [] := by
    have : 0 < l.enum.enum.length := by simpa using List.length_pos.mpr h
    exact List.length_pos.mp this
  obtain ⟨p, hp⟩ := Option.isSome_iff_exists.mp
    (selectBestBy_isSome (fun q => (fun p : Nat × Rat => p.2) q.2) _ h2)
  simp [topkIdx, argmaxIdx, topkBy, hp]

theorem forwardStepElem_length (S : Speller H) (function : Vec → Dist)
    (input : List Nat) (h : H) (enc : List Vec) :
    (forwardStepElem S function input h enc).length = input.length := by
  unfold forwardStepElem
  by_cases hA : S.use_attention <;>
    simp [hA, S.net.attention_len, S.net.rnn_len]

theorem forwardStepElem_eq (S : Speller H) (function : Vec → Dist)
    (input : List Nat) (h : H) (enc : List Vec) :
    forwardStepElem S function input h enc =
      (if S.use_attention = true then
        S.net.attention
          (S.net.rnn h (input.map (fun tok => S.net.input_dropout (S.net.embedding tok)))) enc
      else
        S.net.rnn h (input.map (fun tok => S.net.input_dropout (S.net.embedding tok)))).map
        (fun v => function (S.net.out v)) := rfl

theorem forwardStepElem_exists_singleton (S : Speller H) (function : Vec → Dist)
    (input : List Nat) (h : H) (enc : List Vec) (hi : input.length = 1) :
    ∃ c, forwardStepElem S function input h enc = [function (S.net.out c)] := by
  have hlen : (forwardStepElem S function input h enc).length = 1 := by
    rw [forwardStepElem_length, hi]
  rw [forwardStepElem_eq] at hlen ⊢
  obtain ⟨c, hc⟩ := List.length_eq_one.mp (by simpa using hlen)
  exact ⟨c, by rw [hc]; rfl⟩

theorem freeRunElem_length (S : Speller H) (function : Vec → Dist) (enc : List Vec)
    (h : H) : ∀ (n : Nat) (input : List Nat),
      (freeRunElem S function enc h n input).length = n
  | 0, _ => rfl
  | n + 1, input => by
    simp only [freeRunElem, List.length_cons]
    exact congrArg Nat.succ (freeRunElem_length S function enc h n _)

theorem freeRunElem_getD_zero (S : Speller H) (function : Vec → Dist) (enc : List Vec)
    (h : H) : ∀ (n : Nat) (input : List Nat), 0 < n →
      (freeRunElem S function enc h n input).getD 0 [] =
        (forwardStepElem S function input h enc).headD []
  | 0, _, h0 => absurd h0 (by omega)
  | _ + 1, _, _ => rfl

theorem freeRunElem_getD_succ (S : Speller H) (function : Vec → Dist) (enc : List Vec)
    (h : H) : ∀ (n : Nat) (input : List Nat) (t : Nat), t + 1 < n →
      (freeRunElem S function enc h n input).getD (t + 1) [] =
        (forwardStepElem S function
          (topkIdx 1 ((freeRunElem S function enc h n input).getD t []))
          h enc).headD []
  | 0, _, _, ht => absurd ht (by omega)
  | n + 1, input, t, ht => by
    cases n with
    | zero => omega
    | succ m =>
      cases t with
      | zero =>
        simp only [freeRunElem, List.getD_cons_succ, List.getD_cons_zero]
      | succ s =>
        simp only [freeRunElem, List.getD_cons_succ]
        exact freeRunElem_getD_succ S function enc h (m + 1) _ s (by omega)

theorem freeRunElem_getD_ne_nil (S : Speller H) (function : Vec → Dist)
    (enc : List Vec) (h : H) (hV : ∀ v, function (S.net.out v) ≠ []) :
    ∀ (n : Nat) (input : List Nat), input.length = 1 → ∀ (t : Nat), t < n →
      (freeRunElem S function enc h n input).getD t [] ≠ []
  | 0, _, _, _, ht => absurd ht (by omega)
  | n + 1, input, hi, 0, _ => by
    obtain ⟨c, hc⟩ := forwardStepElem_exists_singleton S function input h enc hi
    simp only [freeRunElem, hc, List.getD_cons_zero, List.headD_cons]
    exact hV c
  | n + 1, input, hi, t + 1, ht => by
    obtain ⟨c, hc⟩ := forwardStepElem_exists_singleton S function input h enc hi
    simp only [freeRunElem, List.getD_cons_succ]
    refine freeRunElem_getD_ne_nil S function enc h hV n _ ?_ t (by omega)
    simp only [hc, List.headD_cons]
    rw [topkIdx_one _ (hV c)]
    rfl

theorem freeRunStepsB_getD (S : Speller H) (function : Vec → Dist)
    (encs : List (List Vec)) (hiddens : List H) (dH : H) :
    ∀ (n : Nat) (inputs : List (List Nat)) (b : Nat), b < inputs.length →
      inputs.length = hiddens.length → hiddens.length = encs.length →
      (freeRunStepsB S function encs hiddens n inputs).map (fun s => s.getD b []) =
        freeRunElem S function (encs.getD b []) (hiddens.getD b dH) n (inputs.getD b [])
  | 0, _, _, _, _, _ => rfl
  | n + 1, inputs, b, hb, h1, h2 => by
    have hzlen : (zipWith3 (fun row h enc => forwardStepElem S function row h enc)
        inputs hiddens encs).length = inputs.length :=
      zipWith3_length _ inputs hiddens encs h1 h2
    have hhead : ((zipWith3 (fun row h enc => forwardStepElem S function row h enc)
        inputs hiddens encs).map (fun p => p.headD [])).getD b [] =
        (forwardStepElem S function (inputs.getD b []) (hiddens.getD b dH)
          (encs.getD b [])).headD [] := by
      rw [getD_map_lt _ _ [] _ b (by omega),
        zipWith3_getD _ [] [] dH [] inputs hiddens encs b hb h1 h2]
    simp only [freeRunStepsB, freeRunElem, List.map_cons]
    rw [hhead]
    refine congrArg₂ _ rfl ?_
    have hlen' : ((zipWith3 (fun row h enc => forwardStepElem S function row h enc)
        inputs hiddens encs).map (fun p => p.headD [])).length = inputs.length := by
      simpa using hzlen
    rw [freeRunStepsB_getD S function encs hiddens dH n _ b
      (by rw [List.length_map, List.length_map, hzlen]; exact hb)
      (by rw [List.length_map, List.length_map, hzlen]; exact h1) h2]
    rw [getD_map_lt _ _ [] _ b (by rw [List.length_map, hzlen]; exact hb), hhead]

theorem headD_eq_getD (l : List α) (d : α) : l.headD d = l.getD 0 d := by
  cases l <;> rfl

theorem range_map_getD_fn (tr : Nat → H) (dH : H) (B b : Nat) (hb : b < B) :
    ((List.range B).map tr).getD b dH = tr b := by
  rw [getD_map_lt tr dH 0 _ b (by simpa using hb),
    List.getD_eq_getElem _ _ (by simpa using hb), List.getElem_range]

theorem forward_free_eq (S : Speller H) (inputs : List (List Nat)) (lh : List H)
    (encs : List (List Vec)) (function : Vec → Dist) (ratio : Rat)
    (rng : RandState) (tr : Nat → H) (hTF : ¬ (rng.stream rng.cursor < ratio)) :
    S.forward inputs lh encs function ratio false rng tr =
      ⟨(stackDim1 inputs.length (freeDecodeResults S function inputs
          ((List.range inputs.length).map tr) encs (size1 inputs - 1))).map
          (fun row => row.map argmaxIdx),
        some (stackDim1 inputs.length (freeDecodeResults S function inputs
          ((List.range inputs.length).map tr) encs (size1 inputs - 1))),
        rng.cursor + 1⟩ := by
  simp [Speller.forward, hTF]

theorem forward_teacher_eq (S : Speller H) (inputs : List (List Nat)) (lh : List H)
    (encs : List (List Vec)) (function : Vec → Dist) (ratio : Rat)
    (rng : RandState) (tr : Nat → H) (hTF : rng.stream rng.cursor < ratio) :
    S.forward inputs lh encs function ratio false rng tr =
      ⟨(stackDim1 inputs.length (teacherDecodeResults S function inputs
          ((List.range inputs.length).map tr) encs)).map
          (fun row => row.map argmaxIdx),
        some (stackDim1 inputs.length (teacherDecodeResults S function inputs
          ((List.range inputs.length).map tr) encs)),
        rng.cursor + 1⟩ := by
  simp [Speller.forward, hTF]

theorem forward_beam_eq (S : Speller H) (inputs : List (List Nat)) (lh : List H)
    (encs : List (List Vec)) (function : Vec → Dist) (ratio : Rat)
    (rng : RandState) (tr : Nat → H) :
    S.forward inputs lh encs function ratio true rng tr =
      ⟨zipWith3 (fun tok h enc => beamSearchElem S function enc S.k (size1 inputs - 1) tok h)
          (inputs.map (fun row => row.headD 0)) ((List.range inputs.length).map tr) encs,
        none, rng.cursor + 1⟩ := rfl

theorem freeDecodeResults_row [Inhabited H] (S : Speller H) (function : Vec → Dist)
    (inputs : List (List Nat)) (hiddens : List H) (encs : List (List Vec)) (n b : Nat)
    (hb : b < inputs.length) (hH : inputs.length = hiddens.length)
    (hE : hiddens.length = encs.length) :
    (freeDecodeResults S function inputs hiddens encs n).map (fun s => s.getD b []) =
      freeRunElem S function (encs.getD b []) (hiddens.getD b default) n
        [(inputs.getD b []).headD 0] := by
  unfold freeDecodeResults
  rw [freeRunStepsB_getD S function encs hiddens default n _ b (by simpa using hb)
    (by simpa using hH) hE]
  rw [getD_map_lt _ _ [] _ b hb]

theorem teacherDecodeResults_row [Inhabited H] (S : Speller H) (function : Vec → Dist)
    (inputs : List (List Nat)) (hiddens : List H) (encs : List (List Vec))
    (L b : Nat) (hrect : ∀ row ∈ inputs, row.length = L)
    (hH : inputs.length = hiddens.length) (hE : hiddens.length = encs.length)
    (hb : b < inputs.length) :
    (teacherDecodeResults S function inputs hiddens encs).map (fun s => s.getD b []) =
      forwardStepElem S function ((inputs.getD b []).dropLast) (hiddens.getD b default)
        (encs.getD b []) := by
  unfold teacherDecodeResults
  have hslen : (inputs.map (fun row => row.dropLast)).length = inputs.length := by simp
  have hplen : (zipWith3 (fun row h enc => forwardStepElem S function row h enc)
      (inputs.map (fun row => row.dropLast)) hiddens encs).length = inputs.length := by
    rw [zipWith3_length _ _ _ _ (by simpa using hH) hE, hslen]
  have hrow : ∀ (i : Nat), i < inputs.length →
      (zipWith3 (fun row h enc => forwardStepElem S function row h enc)
        (inputs.map (fun row => row.dropLast)) hiddens encs).getD i [] =
        forwardStepElem S function ((inputs.getD i []).dropLast) (hiddens.getD i default)
          (encs.getD i []) := by
    intro i hi
    rw [zipWith3_getD _ [] [] default [] _ hiddens encs i (by simpa using hi)
      (by simpa using hH) hE]
    rw [getD_map_lt _ _ [] _ i hi]
  have hrowlen : ∀ (i : Nat), i < inputs.length →
      ((zipWith3 (fun row h enc => forwardStepElem S function row h enc)
        (inputs.map (fun row => row.dropLast)) hiddens encs).getD i []).length = L - 1 := by
    intro i hi
    rw [hrow i hi, forwardStepElem_length, List.length_dropLast,
      hrect _ (getD_mem_of_lt inputs i [] hi)]
  have hK : size1 (zipWith3 (fun row h enc => forwardStepElem S function row h enc)
      (inputs.map (fun row => row.dropLast)) hiddens encs) = L - 1 := by
    unfold size1
    rw [headD_eq_getD, hrowlen 0 (by omega)]
  rw [List.map_map]
  have hmap : ∀ di ∈ List.range (size1 (zipWith3
      (fun row h enc => forwardStepElem S function row h enc)
      (inputs.map (fun row => row.dropLast)) hiddens encs)),
      ((fun s => s.getD b []) ∘ fun di => (zipWith3
        (fun row h enc => forwardStepElem S function row h enc)
        (inputs.map (fun row => row.dropLast)) hiddens encs).map (fun p => p.getD di [])) di =
      ((zipWith3 (fun row h enc => forwardStepElem S function row h enc)
        (inputs.map (fun row => row.dropLast)) hiddens encs).getD b []).getD di [] := by
    intro di _
    simp only [Function.comp]
    rw [getD_map_lt _ _ [] _ b (by omega)]
  rw [List.map_congr_left hmap, hK]
  have hfin : L - 1 = ((zipWith3 (fun row h enc => forwardStepElem S function row h enc)
      (inputs.map (fun row => row.dropLast)) hiddens encs).getD b []).length :=
    (hrowlen b hb).symm
  rw [hfin, range_map_getD, hrow b hb]

theorem map_argmax_getD (l : List (List Dist)) (b t : Nat) :
    ((l.map (fun row => row.map argmaxIdx)).getD b []).getD t 0 =
      argmaxIdx ((l.getD b []).getD t []) := by
  by_cases hb : b < l.length
  · rw [getD_map_lt _ _ [] _ b hb]
    by_cases ht : t < (l.getD b []).length
    · rw [getD_map_lt _ _ [] _ t ht]
    · have h1 : ((l.getD b []).map argmaxIdx).getD t 0 = 0 :=
        List.getD_eq_default _ _ (by simpa using Nat.le_of_not_lt ht)
      have h2 : (l.getD b []).getD t [] = [] :=
        List.getD_eq_default _ _ (Nat.le_of_not_lt ht)
      rw [h1, h2]
      rfl
  · have h1 : (l.map (fun row => row.map argmaxIdx)).getD b [] = [] :=
      List.getD_eq_default _ _ (by simpa using Nat.le_of_not_lt hb)
    have h2 : l.getD b [] = [] := List.getD_eq_default _ _ (Nat.le_of_not_lt hb)
    rw [h1, h2]
    rfl

/-- C2: for any batch size `B` and any rectangular target of width `L`, a
teacher-forced decode call (beam search off, the drawn value below the
teacher-forcing ratio) feeds the entire shifted target row to the step
decoder in a single batched call and returns exactly `L - 1` per-step
vocabulary distributions for every batch element. -/
theorem teacher_forced_single_batched_call [Inhabited H] (S : Speller H)
    (inputs : List (List Nat)) (lh : List H) (encs : List (List Vec))
    (function : Vec → Dist) (ratio : Rat) (rng : RandState) (tr : Nat → H)
    (L b : Nat) (hrect : ∀ row ∈ inputs, row.length = L)
    (hE : inputs.length = encs.length)
    (hTF : rng.stream rng.cursor < ratio) (hb : b < inputs.length) :
    ∃ l, (S.forward inputs lh encs function ratio false rng tr).logit = some l ∧
      l.length = inputs.length ∧
      l.getD b [] = forwardStepElem S function ((inputs.getD b []).dropLast) (tr b)
        (encs.getD b []) ∧
      (l.getD b []).length = L - 1 := by
  rw [forward_teacher_eq S inputs lh encs function ratio rng tr hTF]
  have hrow : (stackDim1 inputs.length (teacherDecodeResults S function inputs
      ((List.range inputs.length).map tr) encs)).getD b [] =
      forwardStepElem S function ((inputs.getD b []).dropLast) (tr b) (encs.getD b []) := by
    rw [stackDim1_getD _ _ b hb,
      teacherDecodeResults_row S function inputs _ encs L b hrect (by simp)
        (by simpa using hE) hb,
      range_map_getD_fn tr default inputs.length b hb]
  refine ⟨_, rfl, by simp [stackDim1], hrow, ?_⟩
  rw [hrow, forwardStepElem_length, List.length_dropLast,
    hrect _ (getD_mem_of_lt inputs b [] hb)]

theorem teacher_forced_single_batched_call_witness :
    ∃ l, (spU.forward [[0, 0, 0]] [()] [[]] (fun d => d) 1 false rngU
        (fun _ => ())).logit = some l ∧
      l.length = 1 ∧
      l.getD 0 [] = forwardStepElem spU (fun d => d) [0, 0] () [] ∧
      (l.getD 0 []).length = 2 :=
  teacher_forced_single_batched_call spU [[0, 0, 0]] [()] [[]] (fun d => d) 1 rngU
    (fun _ => ()) 3 0 (by decide) (by decide) (by decide) (by decide)

/-- C1: a free-running decode call (beam search off, the drawn value not below
the teacher-forcing ratio) returns exactly `L - 1` per-step distributions
per batch element — the full step budget, with no early stop on EOS — where
the first step is computed from the row's initial token and step `t + 1` is
computed from the greedy argmax of step `t`'s returned distribution fed
back as the sole input. -/
theorem free_running_greedy_full_budget [Inhabited H] (S : Speller H)
    (inputs : List (List Nat)) (lh : List H) (encs : List (List Vec))
    (function : Vec → Dist) (ratio : Rat) (rng : RandState) (tr : Nat → H)
    (L b t : Nat) (hrect : ∀ row ∈ inputs, row.length = L)
    (hE : inputs.length = encs.length)
    (hTF : ¬ (rng.stream rng.cursor < ratio)) (hb : b < inputs.length)
    (hV : ∀ v, function (S.net.out v) ≠ []) :
    ∃ l, (S.forward inputs lh encs function ratio false rng tr).logit = some l ∧
      l.length = inputs.length ∧
      (l.getD b []).length = L - 1 ∧
      (0 < L - 1 → (l.getD b []).getD 0 [] =
        (forwardStepElem S function [(inputs.getD b []).headD 0] (tr b)
          (encs.getD b [])).headD []) ∧
      (t + 1 < L - 1 → (l.getD b []).getD (t + 1) [] =
        (forwardStepElem S function [argmaxIdx ((l.getD b []).getD t [])] (tr b)
          (encs.getD b [])).headD []) := by
  rw [forward_free_eq S inputs lh encs function ratio rng tr hTF]
  have hsz : size1 inputs = L := by
    unfold size1
    rw [headD_eq_getD, hrect _ (getD_mem_of_lt inputs 0 [] (by omega))]
  have hrow : (stackDim1 inputs.length (freeDecodeResults S function inputs
      ((List.range inputs.length).map tr) encs (size1 inputs - 1))).getD b [] =
      freeRunElem S function (encs.getD b []) (tr b) (L - 1)
        [(inputs.getD b []).headD 0] := by
    rw [stackDim1_getD _ _ b hb,
      freeDecodeResults_row S function inputs _ encs (size1 inputs - 1) b hb (by simp)
        (by simpa using hE),
      range_map_getD_fn tr default inputs.length b hb, hsz]
  refine ⟨_, rfl, by simp [stackDim1], ?_, ?_, ?_⟩
  · rw [hrow, freeRunElem_length]
  · intro h0
    rw [hrow, freeRunElem_getD_zero S function (encs.getD b []) (tr b) (L - 1) _ h0]
  · intro ht
    rw [hrow, freeRunElem_getD_succ S function (encs.getD b []) (tr b) (L - 1) _ t ht,
      topkIdx_one _ (freeRunElem_getD_ne_nil S function (encs.getD b []) (tr b) hV
        (L - 1) [(inputs.getD b []).headD 0] rfl t (by omega))]

theorem free_running_greedy_full_budget_witness :
    ∃ l, (spU.forward [[0, 0, 0, 0, 0]] [()] [[]] (fun d => d) 0 false rngU
        (fun _ => ())).logit = some l ∧
      l.length = 1 ∧
      (l.getD 0 []).length = 4 ∧
      (0 < 4 → (l.getD 0 []).getD 0 [] =
        (forwardStepElem spU (fun d => d) [0] () []).headD []) ∧
      (0 + 1 < 4 → (l.getD 0 []).getD (0 + 1) [] =
        (forwardStepElem spU (fun d => d) [argmaxIdx ((l.getD 0 []).getD 0 [])] ()
          []).headD []) :=
  free_running_greedy_full_budget spU [[0, 0, 0, 0, 0]] [()] [[]] (fun d => d) 0 rngU
    (fun _ => ()) 5 0 0 (by decide) (by decide) (by decide) (by decide)
    (fun _ => List.cons_ne_nil 0 [1])

/-- C4: the decode call freshly initialises its hidden state from the torch
noise source `torch_rand` and never reads the `listener_hidden` argument:
two calls identical in every input except `listener_hidden` return
identical outputs. -/
theorem listener_hidden_never_used (S : Speller H) (inputs : List (List Nat))
    (lh lh' : List H) (encs : List (List Vec)) (function : Vec → Dist)
    (ratio : Rat) (use_beam_search : Bool) (rng : RandState) (tr : Nat → H) :
    S.forward inputs lh encs function ratio use_beam_search rng tr =
      S.forward inputs lh' encs function ratio use_beam_search rng tr := rfl

/-- C5: a non-beam decode call consumes exactly one value of the Python random
source — the cursor advances by one and the result depends on the stream
only through the value at the call's cursor — and that single value,
compared against the teacher-forcing ratio, fixes the decoding mode
(teacher-forced below the ratio, free-running otherwise) for the whole
call. -/
theorem single_coin_flip_fixes_mode (S : Speller H) (inputs : List (List Nat))
    (lh : List H) (encs : List (List Vec)) (function : Vec → Dist) (ratio : Rat)
    (rng : RandState) (tr : Nat → H) :
    (S.forward inputs lh encs function ratio false rng tr).cursor = rng.cursor + 1 ∧
    (∀ rng' : RandState, rng'.cursor = rng.cursor →
      rng'.stream rng.cursor = rng.stream rng.cursor →
      S.forward inputs lh encs function ratio false rng' tr =
        S.forward inputs lh encs function ratio false rng tr) ∧
    (rng.stream rng.cursor < ratio →
      (S.forward inputs lh encs function ratio false rng tr).logit =
        some (stackDim1 inputs.length (teacherDecodeResults S function inputs
          ((List.range inputs.length).map tr) encs))) ∧
    (¬ (rng.stream rng.cursor < ratio) →
      (S.forward inputs lh encs function ratio false rng tr).logit =
        some (stackDim1 inputs.length (freeDecodeResults S function inputs
          ((List.range inputs.length).map tr) encs (size1 inputs - 1)))) := by
  refine ⟨?_, ?_, ?_, ?_⟩
  · by_cases hTF : rng.stream rng.cursor < ratio
    · rw [forward_teacher_eq S inputs lh encs function ratio rng tr hTF]
    · rw [forward_free_eq S inputs lh encs function ratio rng tr hTF]
  · intro rng' hc hs
    cases rng' with
    | mk stream' cursor' =>
      subst hc
      simp only at hs
      simp only [Speller.forward, hs]
  · intro hTF
    rw [forward_teacher_eq S inputs lh encs function ratio rng tr hTF]
  · intro hTF
    rw [forward_free_eq S inputs lh encs function ratio rng tr hTF]

theorem single_coin_flip_fixes_mode_witness :
    ¬ ((0 : Rat) < 0) ∧
    (spU.forward [[0, 0, 0]] [()] [[]] (fun d => d) 0 false rngU
        (fun _ => ())).logit =
      some (stackDim1 1 (freeDecodeResults spU (fun d => d) [[0, 0, 0]] [()] [[]] 2)) :=
  ⟨by decide,
    (single_coin_flip_fixes_mode spU [[0, 0, 0]] [()] [[]] (fun d => d) 0 rngU
      (fun _ => ())).2.2.2 (by decide)⟩

/-- C10: in every non-beam decode call, the returned token at any batch
element and step equals the first index of the maximum entry of the
returned per-step distribution at that position: the two return values are
linked by argmax. -/
theorem y_hats_are_argmax_of_logit (S : Speller H) (inputs : List (List Nat))
    (lh : List H) (encs : List (List Vec)) (function : Vec → Dist) (ratio : Rat)
    (rng : RandState) (tr : Nat → H) (b t : Nat) :
    ∃ l, (S.forward inputs lh encs function ratio false rng tr).logit = some l ∧
      ((S.forward inputs lh encs function ratio false rng tr).y_hats.getD b []).getD t 0 =
        argmaxIdx ((l.getD b []).getD t []) := by
  by_cases hTF : rng.stream rng.cursor < ratio
  · rw [forward_teacher_eq S inputs lh encs function ratio rng tr hTF]
    exact ⟨_, rfl, map_argmax_getD _ b t⟩
  · rw [forward_free_eq S inputs lh encs function ratio rng tr hTF]
    exact ⟨_, rfl, map_argmax_getD _ b t⟩

/-- C7: constructing the decoder with a recurrent-cell kind outside
lstm/gru/rnn (case-insensitive) fails at construction time; for each of the
three supported kinds the construction succeeds and selects the
corresponding cell. -/
theorem init_cell_kind_checked (H : Type) (net : SpellerNet H)
    (vocab_size max_len hidden_size sos_id eos_id layer_size : Nat)
    (use_attention : Bool) (k : Nat) (s : String) :
    (strLower s ≠ "lstm" → strLower s ≠ "gru" → strLower s ≠ "rnn" →
      Speller.init H net vocab_size max_len hidden_size sos_id eos_id layer_size
        s use_attention k = none) ∧
    (strLower s = "lstm" →
      ∃ sp, Speller.init H net vocab_size max_len hidden_size sos_id eos_id layer_size
        s use_attention k = some sp ∧ sp.cell = RnnCellKind.lstm) ∧
    (strLower s = "gru" →
      ∃ sp, Speller.init H net vocab_size max_len hidden_size sos_id eos_id layer_size
        s use_attention k = some sp ∧ sp.cell = RnnCellKind.gru) ∧
    (strLower s = "rnn" →
      ∃ sp, Speller.init H net vocab_size max_len hidden_size sos_id eos_id layer_size
        s use_attention k = some sp ∧ sp.cell = RnnCellKind.rnn) := by
  refine ⟨?_, ?_, ?_, ?_⟩
  · intro ha hb hc
    unfold Speller.init selectCell
    rw [if_neg ha, if_neg hb, if_neg hc]
  · intro ha
    unfold Speller.init selectCell
    rw [ha, if_pos rfl]
    exact ⟨_, rfl, rfl⟩
  · intro ha
    unfold Speller.init selectCell
    rw [ha, if_neg (by decide), if_pos rfl]
    exact ⟨_, rfl, rfl⟩
  · intro ha
    unfold Speller.init selectCell
    rw [ha, if_neg (by decide), if_neg (by decide), if_pos rfl]
    exact ⟨_, rfl, rfl⟩

theorem init_cell_kind_checked_witness :
    ∃ sp, Speller.init Unit netU 2 4 1 0 1 1 ("LSTM") true 8 = some sp ∧
      sp.cell = RnnCellKind.lstm :=
  (init_cell_kind_checked Unit netU 2 4 1 0 1 1 true 8 ("LSTM")).2.1 (by decide)

/-- C8: with attention disabled a decoding step is not an error — the raw
recurrent output is used directly as the context for the vocabulary
projection, and the result does not depend on the attention sub-module in
any way (it is never invoked). -/
theorem no_attention_uses_raw_context (S : Speller H) (hA : S.use_attention = false)
    (function : Vec → Dist) (input : List Nat) (h : H) (enc : List Vec)
    (att : List Vec → List Vec → List Vec)
    (hal : ∀ d e, (att d e).length = d.length) :
    forwardStepElem S function input h enc =
      (S.net.rnn h (input.map (fun tok => S.net.input_dropout (S.net.embedding tok)))).map
        (fun v => function (S.net.out v)) ∧
    forwardStepElem { S with net := { S.net with attention := att, attention_len := hal } }
        function input h enc = forwardStepElem S function input h enc := by
  constructor
  · rw [forwardStepElem_eq, hA]
    simp
  · simp [forwardStepElem_eq, hA]

theorem no_attention_uses_raw_context_witness :
    forwardStepElem spU (fun d => d) [0] () [] =
      (spU.net.rnn () ([0].map (fun tok => spU.net.input_dropout (spU.net.embedding tok)))).map
        (fun v => (fun d => d) (spU.net.out v)) :=
  (no_attention_uses_raw_context spU rfl (fun d => d) [0] () [] (fun d _ => d)
    (fun _ _ => rfl)).1

/-- C6: calling the attention module with an empty encoder-time dimension
(`enc_len = 0`) fails with an input error; it never silently returns a
context vector. -/
theorem attention_rejects_empty_encoder (expF : Rat → Rat)
    (decoder_output : List Vec) (enc : List Vec) (henc : enc.length = 0) :
    attentionModule expF decoder_output enc =
      Except.error ("attention: empty encoder-time dimension") ∧
    ∀ r, attentionModule expF decoder_output enc ≠ Except.ok r := by
  have h1 : attentionModule expF decoder_output enc =
      Except.error ("attention: empty encoder-time dimension") := by
    unfold attentionModule
    rw [if_pos henc]
  refine ⟨h1, fun r hr => ?_⟩
  rw [h1] at hr
  exact Except.noConfusion hr

theorem attention_rejects_empty_encoder_witness :
    attentionModule (fun x => x) [[1]] [] =
      Except.error ("attention: empty encoder-time dimension") :=
  (attention_rejects_empty_encoder (fun x => x) [[1]] [] rfl).1

theorem char_distance_eq (target y_hat : List Char) :
    char_distance target y_hat =
      (levDistance (y_hat.filter (fun c => c != ' '))
        (target.filter (fun c => c != ' ')),
       ((target.filter (fun c => c != ' ')).filter (fun c => c != ' ')).length) := rfl

theorem filter_filter_self (p : α → Bool) : ∀ (l : List α),
    (l.filter p).filter p = l.filter p
  | [] => rfl
  | a :: as => by
    by_cases h : p a = true
    · simp [List.filter_cons, h, filter_filter_self p as]
    · simp [List.filter_cons, h, filter_filter_self p as]

theorem foldl_range_pair (F G : Nat → Nat) :
    ∀ (n : Nat) (a b : Nat),
      (List.range n).foldl (fun acc i => (acc.1 + F i, acc.2 + G i)) (a, b) =
        (a + (((List.range n).map F).sum), b + (((List.range n).map G).sum))
  | 0, a, b => by simp
  | n + 1, a, b => by
    rw [List.range_succ, List.foldl_append, foldl_range_pair F G n a b]
    simp [Nat.add_assoc]

theorem range_map_getD_zip (g : List Nat → List Nat → Nat) :
    ∀ (ts ys : List (List Nat)), ts.length = ys.length →
      (List.range ts.length).map (fun i => g (ts.getD i []) (ys.getD i [])) =
        List.zipWith g ts ys
  | [], [], _ => rfl
  | [], _ :: _, h => by simp at h
  | _ :: _, [], h => by simp at h
  | t :: ts, y :: ys, h => by
    rw [List.length_cons, List.range_succ_eq_map, List.map_cons, List.map_map,
      List.zipWith_cons_cons]
    refine congrArg₂ _ rfl ?_
    show (List.range ts.length).map (fun i => g (ts.getD i []) (ys.getD i [])) =
      List.zipWith g ts ys
    exact range_map_getD_zip g ts ys (by simpa using h)

/-- C9: `char_distance` returns the edit distance between the two strings
with all spaces removed together with the length of the target with all
spaces removed, and `get_distance` returns the sums of these two
quantities over the batch after converting each id sequence with
`label_to_string` (content at and after EOS stripped by the scorer). -/
theorem distance_scorer_contract (id2char : Nat → Char) (eos_id : Nat)
    (targets y_hats : List (List Nat)) (hlen : targets.length = y_hats.length) :
    (∀ target y_hat : List Char, char_distance target y_hat =
      (levDistance (y_hat.filter (fun c => c != ' '))
        (target.filter (fun c => c != ' ')),
       (target.filter (fun c => c != ' ')).length)) ∧
    get_distance targets y_hats id2char eos_id =
      ((List.zipWith (fun ts ys => (char_distance (label_to_string ts id2char eos_id)
          (label_to_string ys id2char eos_id)).1) targets y_hats).sum,
       (List.zipWith (fun ts ys => (char_distance (label_to_string ts id2char eos_id)
          (label_to_string ys id2char eos_id)).2) targets y_hats).sum) := by
  constructor
  · intro target y_hat
    rw [char_distance_eq, filter_filter_self]
  · unfold get_distance
    rw [foldl_range_pair]
    rw [range_map_getD_zip (fun ts ys => (char_distance (label_to_string ts id2char eos_id)
      (label_to_string ys id2char eos_id)).1) targets y_hats hlen]
    rw [range_map_getD_zip (fun ts ys => (char_distance (label_to_string ts id2char eos_id)
      (label_to_string ys id2char eos_id)).2) targets y_hats hlen]
    simp

theorem distance_scorer_contract_witness :
    ([[3, 4, 1, 5]] : List (List Nat)).length = ([[3, 1]] : List (List Nat)).length ∧
    get_distance [[3, 4, 1, 5]] [[3, 1]] (fun n => Char.ofNat (65 + n)) 1 =
      ((List.zipWith (fun ts ys => (char_distance
          (label_to_string ts (fun n => Char.ofNat (65 + n)) 1)
          (label_to_string ys (fun n => Char.ofNat (65 + n)) 1)).1)
          [[3, 4, 1, 5]] [[3, 1]]).sum,
       (List.zipWith (fun ts ys => (char_distance
          (label_to_string ts (fun n => Char.ofNat (65 + n)) 1)
          (label_to_string ys (fun n => Char.ofNat (65 + n)) 1)).2)
          [[3, 4, 1, 5]] [[3, 1]]).sum) :=
  ⟨rfl, (distance_scorer_contract (fun n => Char.ofNat (65 + n)) 1
    [[3, 4, 1, 5]] [[3, 1]] rfl).2⟩

theorem expandHyp_eq (S : Speller H) (function : Vec → Dist) (enc : List Vec)
    (k : Nat) (hyp : Hypothesis H) :
    expandHyp S function enc k hyp =
      (topkIdx k ((forwardStepElem S function [hyp.tokens.getLastD 0] hyp.hidden
        enc).headD [])).map
        (fun tok =>
          { tokens := hyp.tokens ++ [tok],
            score := hyp.score + ((forwardStepElem S function [hyp.tokens.getLastD 0]
              hyp.hidden enc).headD []).getD tok 0,
            hidden := hyp.hidden,
            terminated := tok == S.eos_id }) := rfl

theorem topkBy_one_singleton (score : α → Rat) (x : α) : topkBy score 1 [x] = [x] := rfl

theorem beamLoop_nil_active (S : Speller H) (function : Vec → Dist) (enc : List Vec)
    (k : Nat) : ∀ (n : Nat) (fin : List (Hypothesis H)),
      beamLoop S function enc k n [] fin = ([], fin)
  | 0, _ => rfl
  | _ + 1, _ => rfl

theorem beamLoop_cons_eq (S : Speller H) (function : Vec → Dist) (enc : List Vec)
    (k n : Nat) (hyp : Hypothesis H) (hyps fin : List (Hypothesis H)) :
    beamLoop S function enc k (n + 1) (hyp :: hyps) fin =
      beamLoop S function enc k n
        ((topkBy (fun q : Hypothesis H => q.score) k
          ((hyp :: hyps).flatMap (expandHyp S function enc k))).filter
            (fun q => !q.terminated))
        (fin ++ (topkBy (fun q : Hypothesis H => q.score) k
          ((hyp :: hyps).flatMap (expandHyp S function enc k))).filter
            (fun q => q.terminated)) := rfl

theorem beamLoop_one_bestTokens (S : Speller H) (function : Vec → Dist) (enc : List Vec)
    (hV : ∀ v, function (S.net.out v) ≠ []) :
    ∀ (n : Nat) (toks : List Nat) (sc : Rat) (h : H),
      bestTokens (beamLoop S function enc 1 n [⟨toks, sc, h, false⟩] []) =
        toks ++ takeThroughEos S.eos_id
          ((freeRunElem S function enc h n [toks.getLastD 0]).map argmaxIdx)
  | 0, toks, sc, h => by
    simp [beamLoop, bestTokens, selectBestBy, freeRunElem, takeThroughEos]
  | n + 1, toks, sc, h => by
    obtain ⟨c, hc⟩ := forwardStepElem_exists_singleton S function [toks.getLastD 0] h enc rfl
    have hd : (forwardStepElem S function [toks.getLastD 0] h enc).headD [] ≠ [] := by
      rw [hc]
      exact hV c
    have hexp : expandHyp S function enc 1 (⟨toks, sc, h, false⟩ : Hypothesis H) =
        [⟨toks ++ [argmaxIdx ((forwardStepElem S function [toks.getLastD 0] h enc).headD [])],
          sc + ((forwardStepElem S function [toks.getLastD 0] h enc).headD []).getD
            (argmaxIdx ((forwardStepElem S function [toks.getLastD 0] h enc).headD [])) 0,
          h,
          argmaxIdx ((forwardStepElem S function [toks.getLastD 0] h enc).headD []) ==
            S.eos_id⟩] := by
      rw [expandHyp_eq, topkIdx_one _ hd]
      rfl
    have hfr : (freeRunElem S function enc h (n + 1) [toks.getLastD 0]).map argmaxIdx =
        argmaxIdx ((forwardStepElem S function [toks.getLastD 0] h enc).headD []) ::
          (freeRunElem S function enc h n (topkIdx 1 ((forwardStepElem S function
            [toks.getLastD 0] h enc).headD []))).map argmaxIdx := rfl
    rw [beamLoop_cons_eq]
    have hflat : ([⟨toks, sc, h, false⟩] : List (Hypothesis H)).flatMap
        (expandHyp S function enc 1) =
        expandHyp S function enc 1 (⟨toks, sc, h, false⟩ : Hypothesis H) := by
      simp
    rw [hflat, hexp, topkBy_one_singleton, hfr]
    cases hY : (argmaxIdx ((forwardStepElem S function [toks.getLastD 0] h enc).headD []) ==
        S.eos_id) with
    | true =>
      have hYeq : argmaxIdx ((forwardStepElem S function [toks.getLastD 0] h enc).headD []) =
          S.eos_id := by simpa using hY
      simp only [List.filter, hY, Bool.not_true]
      rw [beamLoop_nil_active]
      simp only [takeThroughEos]
      rw [if_pos hYeq]
      rfl
    | false =>
      have hYne : ¬ (argmaxIdx ((forwardStepElem S function [toks.getLastD 0] h enc).headD []) =
          S.eos_id) := by simpa using hY
      simp only [List.filter, hY, Bool.not_false]
      rw [List.append_nil]
      rw [beamLoop_one_bestTokens S function enc hV n _ _ h]
      rw [List.getLastD_concat, topkIdx_one _ hd]
      simp only [takeThroughEos]
      rw [if_neg hYne]
      simp

theorem beamSearchElem_eq (S : Speller H) (function : Vec → Dist) (enc : List Vec)
    (k n : Nat) (init_tok : Nat) (h : H) :
    beamSearchElem S function enc k n init_tok h =
      (bestTokens (beamLoop S function enc k n
        (List.replicate k ⟨[init_tok], 0, h, false⟩) [])).drop 1 := rfl

theorem beamSearchElem_one (S : Speller H) (function : Vec → Dist) (enc : List Vec)
    (hV : ∀ v, function (S.net.out v) ≠ []) (n : Nat) (init_tok : Nat) (h : H) :
    beamSearchElem S function enc 1 n init_tok h =
      takeThroughEos S.eos_id
        ((freeRunElem S function enc h n [init_tok]).map argmaxIdx) := by
  rw [beamSearchElem_eq]
  have hrep : List.replicate 1 (⟨[init_tok], 0, h, false⟩ : Hypothesis H) =
      [⟨[init_tok], 0, h, false⟩] := rfl
  rw [hrep, beamLoop_one_bestTokens S function enc hV n [init_tok] 0 h]
  rfl

/-- C3 counterexample: a concrete decoder with beam width 1, identical initial
hidden state (the unit hidden state), and the deterministic first-index
argmax, where the first emitted token is EOS: the spec-modelled beam search
terminates at that EOS while the free-running greedy decode runs its full
two-step budget, so the returned token sequences differ (`[[1]]` against
`[[1, 1]]`). -/
theorem beam_width_one_differs_from_greedy :
    (spU.forward [[0, 0, 0]] [()] [[]] (fun d => d) 0 true rngU (fun _ => ())).y_hats ≠
      (spU.forward [[0, 0, 0]] [()] [[]] (fun d => d) 0 false rngU (fun _ => ())).y_hats := by
  decide

/-- C3 (amended): for beam width k = 1, given identical initial hidden state
and the deterministic first-index argmax tie-break, the beam-search decode
returns the free-running greedy decode's token sequence truncated at the
first EOS token inclusive; in particular the two sequences are identical
whenever no EOS is emitted within the step budget. -/
theorem beam_width_one_truncates_greedy [Inhabited H] (S : Speller H)
    (inputs : List (List Nat)) (lh : List H) (encs : List (List Vec))
    (function : Vec → Dist) (ratio : Rat) (rng : RandState) (tr : Nat → H)
    (L b : Nat) (hk : S.k = 1) (hrect : ∀ row ∈ inputs, row.length = L)
    (hE : inputs.length = encs.length)
    (hTF : ¬ (rng.stream rng.cursor < ratio)) (hb : b < inputs.length)
    (hV : ∀ v, function (S.net.out v) ≠ []) :
    ((S.forward inputs lh encs function ratio true rng tr).y_hats).getD b [] =
      takeThroughEos S.eos_id
        (((S.forward inputs lh encs function ratio false rng tr).y_hats).getD b []) := by
  rw [forward_beam_eq, forward_free_eq S inputs lh encs function ratio rng tr hTF]
  dsimp only
  have hsz : size1 inputs = L := by
    unfold size1
    rw [headD_eq_getD, hrect _ (getD_mem_of_lt inputs 0 [] (by omega))]
  have hbeam : (zipWith3 (fun tok h enc => beamSearchElem S function enc S.k
      (size1 inputs - 1) tok h) (inputs.map (fun row => row.headD 0))
      ((List.range inputs.length).map tr) encs).getD b [] =
      beamSearchElem S function (encs.getD b []) S.k (size1 inputs - 1)
        ((inputs.getD b []).headD 0) (tr b) := by
    rw [zipWith3_getD _ [] 0 default [] _ _ encs b (by simpa using hb) (by simp)
      (by simpa using hE)]
    rw [getD_map_lt _ _ [] _ b hb, range_map_getD_fn tr default inputs.length b hb]
  have hrow : (stackDim1 inputs.length (freeDecodeResults S function inputs
      ((List.range inputs.length).map tr) encs (size1 inputs - 1))).getD b [] =
      freeRunElem S function (encs.getD b []) (tr b) (L - 1)
        [(inputs.getD b []).headD 0] := by
    rw [stackDim1_getD _ _ b hb,
      freeDecodeResults_row S function inputs _ encs (size1 inputs - 1) b hb (by simp)
        (by simpa using hE),
      range_map_getD_fn tr default inputs.length b hb, hsz]
  rw [hbeam, hk]
  rw [getD_map_lt _ _ [] _ b (by simpa [stackDim1] using hb), hrow, hsz]
  exact beamSearchElem_one S function (encs.getD b []) hV (L - 1) _ (tr b)

theorem beam_width_one_truncates_greedy_witness :
    ((spU.forward [[0, 0, 0]] [()] [[]] (fun d => d) 0 true rngU
        (fun _ => ())).y_hats).getD 0 [] =
      takeThroughEos 1
        (((spU.forward [[0, 0, 0]] [()] [[]] (fun d => d) 0 false rngU
          (fun _ => ())).y_hats).getD 0 []) :=
  beam_width_one_truncates_greedy spU [[0, 0, 0]] [()] [[]] (fun d => d) 0 rngU
    (fun _ => ()) 3 0 rfl (by decide) (by decide) (by decide) (by decide)
    (fun _ => List.cons_ne_nil 0 [1])

end Kospeech
